import Mathlib

/-!
Verification of the file-based work queue in `bl/queue.py` (class `Queue`),
as a shallow embedding in Lean 4.

Modelling conventions:
* File names are modelled by their base names (`String`); the code's values
  carry the constant directory prefix `self.path + "/"`, which is the same on
  both sides of every comparison the claims make and is therefore elided.
* `time.strftime("%Y%m%d.%H%M%S.%f", localtime())` is embedded over a
  `struct_time`-like record `Tm`.  `struct_time` carries no sub-second field
  and `%f` is not a `time.strftime` directive (it belongs to
  `datetime.strftime`); glibc passes the unknown directive through literally,
  so the rendered tail is the two characters `%f`.
* `random.random()` rendered through `"%.5f"` is embedded by the rounded
  value `k = round(r * 100000)`, `0 ≤ k ≤ 100000`; the rendering is
  `"0." ++ five digits` (or `"1.00000"` at the rounding edge `k = 100000`).
* Python's `list.sort()` on strings compares code points lexicographically;
  this order is embedded as `lexLt` / `pyLt` below.
-/

namespace BL

/-- Lexicographic strict order on `List Char` by code point, the order Python
uses to compare strings (and hence the order `list.sort()` sorts by). -/
def lexLt : List Char → List Char → Bool
  | [], [] => false
  | [], _ :: _ => true
  | _ :: _, [] => false
  | a :: as, b :: bs => decide (a < b) || (a == b && lexLt as bs)

/-- Python's `s < t` on strings. -/
def pyLt (s t : String) : Bool := lexLt s.data t.data

/-- Python's `s <= t` on strings. -/
def pyLe (s t : String) : Bool := lexLt s.data t.data || s.data == t.data

theorem lexLt_irrefl (a : List Char) : lexLt a a = false := by
  induction a with
  | nil => rfl
  | cons c cs ih => simp [lexLt, ih]

theorem lexLt_asymm {a b : List Char} (h : lexLt a b = true) : lexLt b a = false := by
  induction a generalizing b with
  | nil =>
    cases b with
    | nil => simp [lexLt] at h
    | cons d ds => simp [lexLt]
  | cons c cs ih =>
    cases b with
    | nil => simp [lexLt] at h
    | cons d ds =>
      simp only [lexLt, Bool.or_eq_true, decide_eq_true_eq, Bool.and_eq_true,
        beq_iff_eq] at h
      rcases h with h | ⟨rfl, h⟩
      · simp [lexLt, lt_asymm h, ne_of_gt h]
      · simp [lexLt, lt_self_iff_false, ih h]

theorem lexLt_trans {a b c : List Char} (h1 : lexLt a b = true) (h2 : lexLt b c = true) :
    lexLt a c = true := by
  induction a generalizing b c with
  | nil =>
    cases c with
    | nil =>
      cases b with
      | nil => exact h1
      | cons d ds => simp [lexLt] at h2
    | cons e es => simp [lexLt]
  | cons x xs ih =>
    cases b with
    | nil => simp [lexLt] at h1
    | cons y ys =>
      cases c with
      | nil => simp [lexLt] at h2
      | cons z zs =>
        simp only [lexLt, Bool.or_eq_true, decide_eq_true_eq, Bool.and_eq_true,
          beq_iff_eq] at h1 h2 ⊢
        rcases h1 with h1 | ⟨rfl, h1⟩
        · rcases h2 with h2 | ⟨rfl, h2⟩
          · exact Or.inl (lt_trans h1 h2)
          · exact Or.inl h1
        · rcases h2 with h2 | ⟨rfl, h2⟩
          · exact Or.inl h2
          · exact Or.inr ⟨rfl, ih h1 h2⟩

theorem lexLt_total (a b : List Char) :
    lexLt a b = true ∨ lexLt b a = true ∨ a = b := by
  induction a generalizing b with
  | nil =>
    cases b with
    | nil => exact Or.inr (Or.inr rfl)
    | cons d ds => exact Or.inl (by simp [lexLt])
  | cons c cs ih =>
    cases b with
    | nil => exact Or.inr (Or.inl (by simp [lexLt]))
    | cons d ds =>
      rcases lt_trichotomy c d with h | h | h
      · exact Or.inl (by simp [lexLt, h])
      · subst h
        rcases ih ds with h' | h' | h'
        · exact Or.inl (by simp [lexLt, h'])
        · exact Or.inr (Or.inl (by simp [lexLt, h']))
        · exact Or.inr (Or.inr (by rw [h']))
      · exact Or.inr (Or.inl (by simp [lexLt, h]))

/-- Appending to equal-length lists compares blockwise. -/
theorem lexLt_append {a b : List Char} (u v : List Char) (h : a.length = b.length) :
    lexLt (a ++ u) (b ++ v) = (lexLt a b || (a == b && lexLt u v)) := by
  induction a generalizing b with
  | nil =>
    cases b with
    | nil => cases u <;> cases v <;> simp [lexLt]
    | cons d ds => simp at h
  | cons c cs ih =>
    cases b with
    | nil => simp at h
    | cons d ds =>
      simp only [List.length_cons, Nat.succ.injEq] at h
      by_cases hcd : c = d
      · subst hcd
        by_cases hcds : cs = ds
        · subst hcds
          simp [lexLt, List.cons_append, ih (b := cs) rfl, lexLt_irrefl,
            lt_self_iff_false]
        · have hb1 : (cs == ds) = false := by simp [hcds]
          simp [lexLt, List.cons_append, ih (b := ds) h, hb1, hcds,
            lt_self_iff_false]
      · have hb2 : (c == d) = false := by simp [hcd]
        simp [lexLt, List.cons_append, hb2]

theorem lexLt_append_left {a b : List Char} (u v : List Char) (h : a.length = b.length)
    (hlt : lexLt a b = true) : lexLt (a ++ u) (b ++ v) = true := by
  rw [lexLt_append u v h, hlt, Bool.true_or]

theorem lexLt_append_same (p u v : List Char) :
    lexLt (p ++ u) (p ++ v) = lexLt u v := by
  rw [lexLt_append u v rfl, lexLt_irrefl, beq_self_eq_true]
  simp

/-- The character for a decimal digit, `chr(48 + d)`. -/
def digitChar (d : Nat) : Char := Char.ofNat (48 + d)

theorem digitChar_lt {a b : Nat} (ha : a < 10) (hb : b < 10) (h : a < b) :
    digitChar a < digitChar b := by
  interval_cases a <;> interval_cases b <;> decide

/-- `n` printed in decimal, left-padded with zeros to exactly `w` digits
(the rendering `%04d`-style formatting produces for `n < 10 ^ w`). -/
def padNum : Nat → Nat → List Char
  | 0, _ => []
  | w + 1, n => padNum w (n / 10) ++ [digitChar (n % 10)]

theorem padNum_length (w n : Nat) : (padNum w n).length = w := by
  induction w generalizing n with
  | zero => rfl
  | succ w ih => simp [padNum, ih]

theorem padNum_mono {w m n : Nat} (hmn : m < n) (hn : n < 10 ^ w) :
    lexLt (padNum w m) (padNum w n) = true := by
  induction w generalizing m n with
  | zero => simp at hn; omega
  | succ w ih =>
    have hdiv : n / 10 < 10 ^ w := by
      have : n < 10 ^ w * 10 := by rw [← pow_succ]; exact hn
      omega
    rcases Nat.lt_or_ge (m / 10) (n / 10) with h | h
    · exact lexLt_append_left _ _ (by rw [padNum_length, padNum_length]) (ih h hdiv)
    · have hdeq : m / 10 = n / 10 := by omega
      have hmod : m % 10 < n % 10 := by omega
      rw [padNum, padNum, hdeq, lexLt_append_same]
      simp [lexLt, digitChar_lt (Nat.mod_lt _ (by omega)) (Nat.mod_lt _ (by omega)) hmod]

/-- Splitting a fixed-width decimal rendering into high and low blocks. -/
theorem padNum_append (w1 w2 a b : Nat) (hb : b < 10 ^ w2) :
    padNum (w1 + w2) (a * 10 ^ w2 + b) = padNum w1 a ++ padNum w2 b := by
  induction w2 generalizing b with
  | zero =>
    have : b = 0 := by simpa using hb
    subst this
    simp [padNum]
  | succ w2 ih =>
    have h1 : (a * 10 ^ (w2 + 1) + b) / 10 = a * 10 ^ w2 + b / 10 := by
      rw [pow_succ, ← mul_assoc]
      omega
    have h2 : (a * 10 ^ (w2 + 1) + b) % 10 = b % 10 := by
      rw [pow_succ, ← mul_assoc]
      omega
    have hb' : b / 10 < 10 ^ w2 := by
      have : b < 10 ^ w2 * 10 := by rw [← pow_succ]; exact hb
      omega
    show padNum (w1 + w2 + 1) (a * 10 ^ (w2 + 1) + b) = _
    rw [padNum, h1, h2, ih _ hb', padNum, List.append_assoc]

/-- A `time.struct_time` value as `time.localtime()` returns it: calendar
fields down to whole seconds.  `struct_time` has no sub-second field, which is
why nothing the queue renders can depend on the microsecond of the wall
clock. -/
structure Tm where
  year : Nat
  month : Nat
  day : Nat
  hour : Nat
  minute : Nat
  second : Nat
  deriving DecidableEq, Repr

/-- The fields that `strftime` renders, in range (realistic values are
narrower; only these bounds matter for fixed-width padding). -/
def Tm.inRange (t : Tm) : Prop :=
  t.year < 10000 ∧ t.month < 100 ∧ t.day < 100 ∧ t.hour < 100 ∧
    t.minute < 100 ∧ t.second < 100

instance (t : Tm) : Decidable t.inRange := by
  unfold Tm.inRange; infer_instance

/-- The whole-second timeline position of `t`: later wall-clock seconds give
strictly larger keys (for in-range fields). -/
def Tm.key (t : Tm) : Nat :=
  ((((t.year * 100 + t.month) * 100 + t.day) * 100 + t.hour) * 100 + t.minute)
      * 100 + t.second

/-- `time.strftime("%Y%m%d.%H%M%S.%f", t)`, embedded from `insert`
(queue.py line 45).  `%Y %m %d %H %M %S` render zero-padded decimal fields;
`%f` is not a `time.strftime` directive (the `struct_time` argument has no
sub-second field), and glibc copies the unknown directive through, so the
output ends in the literal characters `.%f`. -/
def strftimeYmdHMSf (t : Tm) : List Char :=
  padNum 4 t.year ++ padNum 2 t.month ++ padNum 2 t.day ++ ['.'] ++
    padNum 2 t.hour ++ padNum 2 t.minute ++ padNum 2 t.second ++ ['.', '%', 'f']

/-- `"%.5f" % random.random()` (queue.py line 44), embedded by the rounded
value `k = round(r * 100000)` of the draw `r ∈ [0, 1)`: the rendering is
`0.` followed by five digits, or `1.00000` at the rounding edge
`k = 100000`. -/
def fmtRandom (k : Nat) : List Char :=
  if k = 100000 then ['1', '.'] ++ padNum 5 0 else ['0', '.'] ++ padNum 5 k

/-- The queue entry base name `"%s%s-%.5f%s%s" % (prefix, strftime, random,
suffix, ext)` built by `insert` (queue.py lines 44-45), as a function of the
wall-clock seconds `t` and the rounded random draw `k`.  (`prefix` and
`suffix` are the Python parameter names; spelled `pfx`/`sfx` here.) -/
def insertName (pfx sfx ext : String) (t : Tm) (k : Nat) : String :=
  ⟨pfx.data ++ strftimeYmdHMSf t ++ ['-'] ++ fmtRandom k ++ sfx.data ++ ext.data⟩

/-- `insert` evaluated at a full wall-clock instant `(t, micro)`:
`time.localtime()` truncates to whole seconds before `strftime` sees the
value, so the generated name does not depend on `micro` at all. -/
def insertNameAtMicro (pfx sfx ext : String) (t : Tm) (_micro : Nat) (k : Nat) :
    String :=
  insertName pfx sfx ext t k

section NameOrder

/-- The timestamp block regrouped into two fixed-width numerals. -/
theorem strftime_as_blocks (t : Tm) (h : t.inRange) :
    strftimeYmdHMSf t =
      padNum 8 ((t.year * 100 + t.month) * 100 + t.day) ++ ['.'] ++
        padNum 6 ((t.hour * 100 + t.minute) * 100 + t.second) ++ ['.', '%', 'f'] := by
  obtain ⟨hy, hmo, hd, hh, hmi, hs⟩ := h
  have e1 : padNum 8 ((t.year * 100 + t.month) * 100 + t.day)
      = padNum 4 t.year ++ padNum 2 t.month ++ padNum 2 t.day := by
    have : ((t.year * 100 + t.month) * 100 + t.day)
        = (t.year * 100 + t.month) * 10 ^ 2 + t.day := by norm_num
    rw [show (8 : Nat) = 6 + 2 by norm_num, this,
      padNum_append 6 2 _ _ (by simpa using hd),
      show (6 : Nat) = 4 + 2 by norm_num,
      show t.year * 100 + t.month = t.year * 10 ^ 2 + t.month by norm_num,
      padNum_append 4 2 _ _ (by simpa using hmo)]
  have e2 : padNum 6 ((t.hour * 100 + t.minute) * 100 + t.second)
      = padNum 2 t.hour ++ padNum 2 t.minute ++ padNum 2 t.second := by
    rw [show (6 : Nat) = 4 + 2 by norm_num,
      show ((t.hour * 100 + t.minute) * 100 + t.second)
        = (t.hour * 100 + t.minute) * 10 ^ 2 + t.second by norm_num,
      padNum_append 4 2 _ _ (by simpa using hs),
      show (4 : Nat) = 2 + 2 by norm_num,
      show t.hour * 100 + t.minute = t.hour * 10 ^ 2 + t.minute by norm_num,
      padNum_append 2 2 _ _ (by simpa using hmi)]
  rw [strftimeYmdHMSf, e1, e2]
  simp [List.append_assoc]

theorem strftime_length (t : Tm) : (strftimeYmdHMSf t).length = 18 := by
  simp [strftimeYmdHMSf, padNum_length]

/-- Strictly later whole-second wall-clock time gives a strictly
lexicographically larger timestamp block. -/
theorem strftime_mono {t1 t2 : Tm} (h1 : t1.inRange) (h2 : t2.inRange)
    (hk : t1.key < t2.key) :
    lexLt (strftimeYmdHMSf t1) (strftimeYmdHMSf t2) = true := by
  obtain ⟨hy1, hmo1, hd1, hh1, hmi1, hs1⟩ := h1
  obtain ⟨hy2, hmo2, hd2, hh2, hmi2, hs2⟩ := h2
  rw [strftime_as_blocks t1 ⟨hy1, hmo1, hd1, hh1, hmi1, hs1⟩,
    strftime_as_blocks t2 ⟨hy2, hmo2, hd2, hh2, hmi2, hs2⟩]
  set a1 := (t1.year * 100 + t1.month) * 100 + t1.day with ha1
  set a2 := (t2.year * 100 + t2.month) * 100 + t2.day with ha2
  set b1 := (t1.hour * 100 + t1.minute) * 100 + t1.second with hb1
  set b2 := (t2.hour * 100 + t2.minute) * 100 + t2.second with hb2
  have ha2lt : a2 < 10 ^ 8 := by simp only [ha2]; norm_num; omega
  have hb1lt : b1 < 10 ^ 6 := by simp only [hb1]; norm_num; omega
  have hb2lt : b2 < 10 ^ 6 := by simp only [hb2]; norm_num; omega
  have hkey1 : t1.key = a1 * 10 ^ 6 + b1 := by
    simp only [Tm.key, ha1, hb1]; ring
  have hkey2 : t2.key = a2 * 10 ^ 6 + b2 := by
    simp only [Tm.key, ha2, hb2]; ring
  have e6 : (10 : Nat) ^ 6 = 1000000 := by norm_num
  rw [hkey1, hkey2, e6] at hk
  rw [e6] at hb1lt hb2lt
  simp only [List.append_assoc]
  rcases Nat.lt_or_ge a1 a2 with ha | ha
  · exact lexLt_append_left _ _ (by simp [padNum_length]) (padNum_mono ha ha2lt)
  · have haeq : a1 = a2 := by omega
    rw [haeq]
    have hb : b1 < b2 := by omega
    rw [lexLt_append_same, lexLt_append_same]
    exact lexLt_append_left _ _ (by simp [padNum_length])
      (padNum_mono hb (by rw [e6]; exact hb2lt))

theorem pyLt_mk (l1 l2 : List Char) : pyLt ⟨l1⟩ ⟨l2⟩ = lexLt l1 l2 := rfl

theorem ne_of_pyLt {s t : String} (h : pyLt s t = true) : s ≠ t := by
  intro e
  subst e
  rw [pyLt, lexLt_irrefl] at h
  exact Bool.false_ne_true h

/-- Strictly later whole-second insertion time gives a strictly larger entry
name, whatever the two random draws are. -/
theorem insertName_lt_of_key_lt (pfx sfx ext : String) {t1 t2 : Tm} (k1 k2 : Nat)
    (h1 : t1.inRange) (h2 : t2.inRange) (hk : t1.key < t2.key) :
    pyLt (insertName pfx sfx ext t1 k1) (insertName pfx sfx ext t2 k2) = true := by
  rw [insertName, insertName, pyLt_mk]
  simp only [List.append_assoc]
  rw [lexLt_append_same]
  exact lexLt_append_left _ _ (by rw [strftime_length, strftime_length])
    (strftime_mono h1 h2 hk)

/-- Two insertions in the same wall-clock second: the order of the names is
exactly the order of the rounded random draws. -/
theorem insertName_same_second (pfx sfx ext : String) (t : Tm) {k1 k2 : Nat}
    (hk1 : k1 < 100000) (hk2 : k2 < 100000) :
    pyLt (insertName pfx sfx ext t k1) (insertName pfx sfx ext t k2)
      = decide (k1 < k2) := by
  rw [insertName, insertName, pyLt_mk]
  simp only [List.append_assoc]
  rw [lexLt_append_same, lexLt_append_same, lexLt_append_same]
  rw [fmtRandom, fmtRandom, if_neg (by omega), if_neg (by omega)]
  simp only [List.append_assoc]
  rw [lexLt_append_same]
  rw [lexLt_append _ _ (by rw [padNum_length, padNum_length]), lexLt_irrefl]
  have e5 : (100000 : Nat) = 10 ^ 5 := by norm_num
  rcases lt_trichotomy k1 k2 with h | h | h
  · simp [padNum_mono h (e5 ▸ hk2), h]
  · subst h
    simp [lexLt_irrefl, lt_irrefl]
  · have hlt := padNum_mono h (e5 ▸ hk1)
    simp [lexLt_asymm hlt, Nat.lt_asymm h]

theorem Tm.key_inj {t1 t2 : Tm} (h1 : t1.inRange) (h2 : t2.inRange)
    (h : t1.key = t2.key) : t1 = t2 := by
  obtain ⟨hy1, hmo1, hd1, hh1, hmi1, hs1⟩ := h1
  obtain ⟨hy2, hmo2, hd2, hh2, hmi2, hs2⟩ := h2
  cases t1
  cases t2
  simp only [Tm.key] at h hy1 hmo1 hd1 hh1 hmi1 hs1 hy2 hmo2 hd2 hh2 hmi2 hs2
  simp only [Tm.mk.injEq]
  omega

/-- Distinct `(whole second, rounded random)` pairs give distinct names. -/
theorem insertName_inj (pfx sfx ext : String) {t1 t2 : Tm} {k1 k2 : Nat}
    (h1 : t1.inRange) (h2 : t2.inRange) (hk1 : k1 < 100000) (hk2 : k2 < 100000)
    (hne : t1 ≠ t2 ∨ k1 ≠ k2) :
    insertName pfx sfx ext t1 k1 ≠ insertName pfx sfx ext t2 k2 := by
  rcases Nat.lt_trichotomy t1.key t2.key with h | h | h
  · exact ne_of_pyLt (insertName_lt_of_key_lt pfx sfx ext k1 k2 h1 h2 h)
  · have ht : t1 = t2 := Tm.key_inj h1 h2 h
    subst ht
    have hkk : k1 ≠ k2 := by
      rcases hne with hne | hne
      · exact absurd rfl hne
      · exact hne
    rcases Nat.lt_or_ge k1 k2 with hlt | hge
    · refine ne_of_pyLt ?_
      rw [insertName_same_second pfx sfx ext t1 hk1 hk2]
      simpa using hlt
    · have hlt : k2 < k1 := by omega
      refine (ne_of_pyLt ?_).symm
      rw [insertName_same_second pfx sfx ext t1 hk2 hk1]
      simpa using hlt
  · exact (ne_of_pyLt (insertName_lt_of_key_lt pfx sfx ext k2 k1 h2 h1 h)).symm

end NameOrder

section SortGlob

theorem pyLe_total (s t : String) : pyLe s t = true ∨ pyLe t s = true := by
  rcases lexLt_total s.data t.data with h | h | h
  · exact Or.inl (by rw [pyLe, h, Bool.true_or])
  · exact Or.inr (by rw [pyLe, h, Bool.true_or])
  · exact Or.inl (by rw [pyLe, h]; simp)

theorem pyLe_trans {a b c : String} (h1 : pyLe a b = true) (h2 : pyLe b c = true) :
    pyLe a c = true := by
  rw [pyLe, Bool.or_eq_true, beq_iff_eq] at h1 h2 ⊢
  rcases h1 with h1 | h1
  · rcases h2 with h2 | h2
    · exact Or.inl (lexLt_trans h1 h2)
    · exact Or.inl (h2 ▸ h1)
  · rcases h2 with h2 | h2
    · exact Or.inl (h1 ▸ h2)
    · exact Or.inr (h1.trans h2)

/-- One step of insertion sort over Python's string order; `sortNames` below
embedds `l.sort()` as used in `Queue.list` (queue.py line 55). -/
def insertSorted (x : String) : List String → List String
  | [] => [x]
  | y :: ys => if pyLe x y then x :: y :: ys else y :: insertSorted x ys

def sortNames (l : List String) : List String := l.foldr insertSorted []

theorem mem_insertSorted (x z : String) (l : List String) :
    z ∈ insertSorted x l ↔ z = x ∨ z ∈ l := by
  induction l with
  | nil => simp [insertSorted]
  | cons y ys ih =>
    by_cases h : pyLe x y = true
    · simp [insertSorted, h]
    · simp only [insertSorted, if_neg h, List.mem_cons, ih]
      tauto

theorem mem_sortNames (z : String) (l : List String) :
    z ∈ sortNames l ↔ z ∈ l := by
  induction l with
  | nil => simp [sortNames]
  | cons y ys ih =>
    simp only [sortNames, List.foldr_cons] at ih ⊢
    rw [mem_insertSorted, ih, List.mem_cons]

theorem pairwise_insertSorted (x : String) (l : List String)
    (h : l.Pairwise (fun a b => pyLe a b = true)) :
    (insertSorted x l).Pairwise (fun a b => pyLe a b = true) := by
  induction l with
  | nil => simp [insertSorted]
  | cons y ys ih =>
    rcases List.pairwise_cons.mp h with ⟨hy, hys⟩
    by_cases hxy : pyLe x y = true
    · rw [insertSorted, if_pos hxy]
      refine List.pairwise_cons.mpr ⟨?_, h⟩
      intro z hz
      rcases List.mem_cons.mp hz with rfl | hz
      · exact hxy
      · exact pyLe_trans hxy (hy z hz)
    · rw [insertSorted, if_neg hxy]
      refine List.pairwise_cons.mpr ⟨?_, ih hys⟩
      intro z hz
      rcases (mem_insertSorted x z ys).mp hz with rfl | hz
      · rcases pyLe_total z y with h' | h'
        · exact absurd h' hxy
        · exact h'
      · exact hy z hz

theorem pairwise_sortNames (l : List String) :
    (sortNames l).Pairwise (fun a b => pyLe a b = true) := by
  induction l with
  | nil => simp [sortNames]
  | cons y ys ih => exact pairwise_insertSorted y _ ih

/-- `fnmatch` matching for the pattern constructs the queue's callers use
(`*`, `?` and literal characters; character classes are outside the modelled
pattern subset).  The `fuel` argument only forces structural recursion; each
step shrinks `pattern.length + s.length`, so the wrapper's initial fuel is
never exhausted. -/
def fnmatchAux : Nat → List Char → List Char → Bool
  | 0, _, _ => false
  | _ + 1, [], s => s.isEmpty
  | fuel + 1, '*' :: ps, [] => fnmatchAux fuel ps []
  | fuel + 1, '*' :: ps, c :: ss =>
      fnmatchAux fuel ps (c :: ss) || fnmatchAux fuel ('*' :: ps) ss
  | _ + 1, _ :: _, [] => false
  | fuel + 1, p :: ps, c :: ss => (p == '?' || p == c) && fnmatchAux fuel ps ss

def fnmatch (pat n : String) : Bool :=
  fnmatchAux (pat.length + n.length + 1) pat.data n.data

/-- `glob` treats a name as hidden when it begins with a dot
(`glob._ishidden`: `path[0] == '.'`). -/
def hiddenName (n : String) : Bool :=
  match n.data with
  | [] => false
  | c :: _ => c == '.'

/-- Whether a pattern contains one of `glob`'s magic characters `* ? [`. -/
def hasMagic (p : String) : Bool :=
  p.data.any (fun c => c == '*' || c == '?' || c == '[')

/-- `glob.glob` restricted to one directory, embedded for `Queue.list`
(queue.py line 53): with a magic pattern, hidden names are dropped unless the
pattern itself is hidden, then `fnmatch` filters; a literal pattern names the
one file it equals (returned whether hidden or not, if it exists). -/
def globNames (names : List String) (p : String) : List String :=
  if hasMagic p then
    (if hiddenName p then names
     else names.filter (fun n => !hiddenName n)).filter (fun n => fnmatch p n)
  else
    names.filter (fun n => n == p)

end SortGlob

section QueueModel

/-- One directory entry: base name, file content, and whether the entry is a
directory (only `Queue.list`'s `os.path.isdir` filter looks at this). -/
structure QFile where
  name : String
  content : String
  isDir : Bool
  deriving DecidableEq, Repr

/-- The filesystem state a `Queue` instance acts on: the files under
`self.path` (pending) and under `self.outpath` (claimed).  `renameOSErr`
models the environment: base names for which `os.rename` out of the pending
directory would raise an `OSError` other than `FileNotFoundError`
(e.g. `EACCES`); it is consulted only if a rename is actually attempted. -/
structure QueueState where
  pending : List QFile
  claimed : List QFile
  renameOSErr : List String
  deriving DecidableEq, Repr

/-- `Queue.list(pattern)` (queue.py lines 50-56): glob the directory with
`pattern`, drop directories, sort. -/
def listQueue (s : QueueState) (pat : String) : List String :=
  sortNames ((globNames (s.pending.map (fun f => f.name)) pat).filter
    (fun n => !(s.pending.any (fun f => f.name == n && f.isDir))))

/-- The log calls `process_queue` and `handle_exception` make, with the
wall-clock timestamp of the header line elided. -/
inductive LogEvent
  | header (fn : String)           -- `self.log("[%s] %s" % (timestamp, fn))`
  | alreadyProcessed               -- `self.log("-- doesn't exist; already processed")`
  | exceptionLog (fn : String)     -- `self.log("== EXCEPTION:", fn)` + traceback
  deriving DecidableEq, Repr

/-- A Python exception escaping a sweep. -/
inductive PyErr
  | nameErr (n : String)           -- `NameError: name n is not defined`
  deriving DecidableEq, Repr

/-- Outcome of one whole `process_queue()` call: the filesystem afterwards,
the log lines emitted, the arguments of the `process_entry` and
`handle_exception` invocations, and the exception escaping the sweep, if
any. -/
structure SweepResult where
  state : QueueState
  logs : List LogEvent
  processed : List String
  failures : List String
  error : Option PyErr
  deriving DecidableEq, Repr

/-- The names the sweep visited (one `header` log line per loop
iteration). -/
def SweepResult.attempts (r : SweepResult) : List String :=
  r.logs.filterMap (fun e =>
    match e with
    | .header fn => some fn
    | _ => none)

/-- The loop body of `process_queue` (queue.py lines 65-80) over the listed
names, as written: the claim block evaluates
`os.path.join(outpath, os.path.basename(fn))`, and `outpath` is an unbound
name (the instance attribute is `self.outpath`), so every iteration raises
`NameError` there; the bare `except:` catches it, logs
`-- doesn't exist; already processed` and `continue`s.  `os.rename`,
`process_entry` and `handle_exception` are unreachable. -/
def runSweepAsWritten (s : QueueState) : List String → SweepResult
  | [] => ⟨s, [], [], [], none⟩
  | fn :: rest =>
      let r := runSweepAsWritten s rest
      ⟨r.state, .header fn :: .alreadyProcessed :: r.logs, r.processed,
        r.failures, r.error⟩

/-- `Queue.process_queue()` (queue.py lines 58-80) as written. -/
def processQueue (s : QueueState) : SweepResult :=
  runSweepAsWritten s (listQueue s "*")

/-- `os.rename(fn, newfn)` from the pending into the claimed directory:
raises `FileNotFoundError` when the source is gone, raises some other
`OSError` when the environment says so, otherwise atomically moves the file
(base name and content unchanged), silently replacing any file of the same
name already in the claimed directory. -/
inductive RenameErr
  | enoent                         -- FileNotFoundError
  | osErr                          -- any other OSError, e.g. permission
  deriving DecidableEq, Repr

def renamePy (s : QueueState) (fn : String) : Except RenameErr QueueState :=
  match s.pending.find? (fun f => f.name == fn) with
  | none => .error .enoent
  | some f =>
      if s.renameOSErr.contains fn then .error .osErr
      else .ok { s with
        pending := s.pending.filter (fun g => !(g.name == fn)),
        claimed := s.claimed.filter (fun g => !(g.name == fn)) ++ [f] }

/-- Modelled from the spec (§9): the loop body of `process_queue` with the
undefined `outpath` of line 70 read as the instance's configured output path
(`self.outpath`), which §9 names as the almost certainly intended identifier.
Everything else is as written: in particular the bare `except:` of line 72
still catches every claim-step failure, and line 79's `except exception:`
still evaluates the unbound name `exception` when `process_entry` raises, so
that `NameError` escapes the sweep.  `handler fn` gives the outcome of
`self.process_entry(newfn)` (`true` = returns normally). -/
def runSweepClaimFixed (handler : String → Bool) :
    QueueState → List String → SweepResult
  | s, [] => ⟨s, [], [], [], none⟩
  | s, fn :: rest =>
      match renamePy s fn with
      | .error _ =>
          -- bare `except:`: log and continue, whatever the exception was
          let r := runSweepClaimFixed handler s rest
          ⟨r.state, .header fn :: .alreadyProcessed :: r.logs, r.processed,
            r.failures, r.error⟩
      | .ok s' =>
          if handler fn then
            let r := runSweepClaimFixed handler s' rest
            ⟨r.state, .header fn :: r.logs, fn :: r.processed, r.failures,
              r.error⟩
          else
            -- `except exception:` looks up the unbound name `exception`:
            -- the resulting NameError escapes and aborts the sweep
            ⟨s', [.header fn], [fn], [], some (.nameErr "exception")⟩

def processQueueClaimFixed (handler : String → Bool) (s : QueueState) :
    SweepResult :=
  runSweepClaimFixed handler s (listQueue s "*")

/-- `Queue.insert(text, prefix, suffix, ext)` (queue.py lines 37-48),
evaluated at whole-second wall-clock time `t` with rounded random draw `k`.
The name is built by lines 44-45; the write is `Text(fn=qfn, text=text)`
followed by `qf.write()`.  `bl.text.Text` is not under src/; its write is
modelled from the spec: `writes payload verbatim to a new file of that name`
where `new file creation must fail loudly, not silently overwrite, if a name
collision somehow occurs` (§4.5), i.e. an existing file of the same name is
left untouched and the insertion fails with the collision error. -/
def insertOp (s : QueueState) (pfx sfx ext : String) (t : Tm) (k : Nat)
    (text : String) : Except String (QueueState × String) :=
  if s.pending.any (fun f => f.name == insertName pfx sfx ext t k) then
    .error "InsertionCollisionError"
  else
    .ok ({ s with
        pending := s.pending ++ [⟨insertName pfx sfx ext t k, text, false⟩] },
      insertName pfx sfx ext t k)

end QueueModel

section SweepLemmas

theorem runSweepAsWritten_state (s : QueueState) (fns : List String) :
    (runSweepAsWritten s fns).state = s := by
  induction fns with
  | nil => rfl
  | cons fn rest ih => simp [runSweepAsWritten, ih]

theorem runSweepAsWritten_processed (s : QueueState) (fns : List String) :
    (runSweepAsWritten s fns).processed = [] := by
  induction fns with
  | nil => rfl
  | cons fn rest ih => simp [runSweepAsWritten, ih]

theorem runSweepAsWritten_failures (s : QueueState) (fns : List String) :
    (runSweepAsWritten s fns).failures = [] := by
  induction fns with
  | nil => rfl
  | cons fn rest ih => simp [runSweepAsWritten, ih]

theorem runSweepAsWritten_error (s : QueueState) (fns : List String) :
    (runSweepAsWritten s fns).error = none := by
  induction fns with
  | nil => rfl
  | cons fn rest ih => simp [runSweepAsWritten, ih]

theorem runSweepAsWritten_attempts (s : QueueState) (fns : List String) :
    (runSweepAsWritten s fns).attempts = fns := by
  induction fns with
  | nil => rfl
  | cons fn rest ih =>
    simp only [runSweepAsWritten, SweepResult.attempts, List.filterMap_cons] at ih ⊢
    rw [ih]

theorem processQueue_state (s : QueueState) : (processQueue s).state = s :=
  runSweepAsWritten_state s _

theorem processQueue_attempts (s : QueueState) :
    (processQueue s).attempts = listQueue s "*" :=
  runSweepAsWritten_attempts s _

/-- Names in the pending list that survive glob `*`: not hidden and matched. -/
theorem mem_glob_star {names : List String} {n : String}
    (h : n ∈ globNames names "*") : n ∈ names ∧ hiddenName n = false := by
  rw [globNames, if_pos (by decide), if_neg (by decide)] at h
  rcases List.mem_filter.mp h with ⟨h1, _⟩
  rcases List.mem_filter.mp h1 with ⟨h2, h3⟩
  exact ⟨h2, by simpa using h3⟩

theorem mem_glob (names : List String) (p n : String) (h : n ∈ globNames names p) :
    n ∈ names := by
  rw [globNames] at h
  by_cases hm : hasMagic p = true
  · rw [if_pos hm] at h
    by_cases hh : hiddenName p = true
    · rw [if_pos hh] at h
      exact (List.mem_filter.mp h).1
    · rw [if_neg hh] at h
      exact (List.mem_filter.mp (List.mem_filter.mp h).1).1
  · rw [if_neg hm] at h
    exact (List.mem_filter.mp h).1

/-- A hidden name comes through `glob` only when the pattern is itself hidden
(for a magic pattern) or names the file literally. -/
theorem hidden_mem_glob {names : List String} {p n : String}
    (hn : hiddenName n = true) (h : n ∈ globNames names p) :
    (hasMagic p = true ∧ hiddenName p = true ∧ fnmatch p n = true) ∨
      (hasMagic p = false ∧ n = p) := by
  rw [globNames] at h
  by_cases hm : hasMagic p = true
  · rw [if_pos hm] at h
    by_cases hh : hiddenName p = true
    · rw [if_pos hh] at h
      exact Or.inl ⟨hm, hh, (List.mem_filter.mp h).2⟩
    · rw [if_neg hh] at h
      have := (List.mem_filter.mp (List.mem_filter.mp h).1).2
      rw [hn] at this
      exact absurd this (by decide)
  · rw [if_neg hm] at h
    exact Or.inr ⟨by simpa using hm, by simpa using (List.mem_filter.mp h).2⟩

theorem mem_listQueue {s : QueueState} {pat n : String}
    (h : n ∈ listQueue s pat) :
    n ∈ globNames (s.pending.map (fun f => f.name)) pat ∧
      ∃ f ∈ s.pending, f.name = n ∧ f.isDir = false := by
  rw [listQueue, mem_sortNames] at h
  rcases List.mem_filter.mp h with ⟨h1, h2⟩
  refine ⟨h1, ?_⟩
  have hmem := mem_glob _ _ _ h1
  rcases List.mem_map.mp hmem with ⟨f, hf, rfl⟩
  refine ⟨f, hf, rfl, ?_⟩
  by_contra hdir
  have : s.pending.any (fun g => g.name == f.name && g.isDir) = true :=
    List.any_eq_true.mpr ⟨f, hf, by simp [eq_true_of_ne_false hdir]⟩
  rw [this] at h2
  exact absurd h2 (by decide)

theorem listQueue_sorted (s : QueueState) (pat : String) :
    (listQueue s pat).Pairwise (fun a b => pyLe a b = true) :=
  pairwise_sortNames _

/-- Names across both directories are distinct (what real directories
guarantee; base-name reuse between pending and claimed is also excluded). -/
def namesNodup (s : QueueState) : Prop :=
  ((s.pending ++ s.claimed).map (fun f => f.name)).Nodup

instance (s : QueueState) : Decidable (namesNodup s) := by
  unfold namesNodup; infer_instance

theorem map_name_filter (l : List QFile) (fn : String) :
    (l.filter (fun g => !(g.name == fn))).map (fun f => f.name)
      = (l.map (fun f => f.name)).filter (fun x => !(x == fn)) := by
  induction l with
  | nil => rfl
  | cons g gs ih =>
    simp only [List.filter_cons, List.map_cons]
    by_cases h : (g.name == fn) = true
    · simp [h, ih]
    · have h' : (g.name == fn) = false := by simpa using h
      simp [h', ih]

theorem renamePy_ok_frame {s : QueueState} {fn : String} {s' : QueueState}
    (h : renamePy s fn = .ok s') (hnd : namesNodup s) :
    namesNodup s' ∧
    (∀ f, f ∈ s.claimed → f ∈ s'.claimed) ∧
    (∀ f, f ∈ s'.pending → f ∈ s.pending) ∧
    (∀ f, f ∈ s.pending → f ∈ s'.pending ∨ f ∈ s'.claimed) ∧
    (∀ f, f ∈ s'.claimed → f ∈ s.claimed ∨ f ∈ s.pending) := by
  rw [renamePy] at h
  split at h
  next => exact absurd h (by simp)
  next f0 hfind =>
    split at h
    next => exact absurd h (by simp)
    next hos =>
      have hmem : f0 ∈ s.pending := List.mem_of_find?_eq_some hfind
      have hname : f0.name = fn := by
        have := List.find?_some hfind
        simpa using this
      have hs' : s' = { s with
          pending := s.pending.filter (fun g => !(g.name == fn)),
          claimed := s.claimed.filter (fun g => !(g.name == fn)) ++ [f0] } := by
        injection h with h
        exact h.symm
      subst hs'
      have hnd' := hnd
      rw [namesNodup, List.map_append, List.nodup_append] at hnd'
      rcases hnd' with ⟨hndP, hndC, hdisj⟩
      have hfnP : fn ∈ s.pending.map (fun f => f.name) :=
        List.mem_map.mpr ⟨f0, hmem, hname⟩
      have hfnC : fn ∉ s.claimed.map (fun f => f.name) := fun hc => hdisj hfnP hc
      have hCfilter : s.claimed.filter (fun g => !(g.name == fn)) = s.claimed := by
        apply List.filter_eq_self.mpr
        intro g hg
        have : g.name ≠ fn := fun e => hfnC (List.mem_map.mpr ⟨g, hg, e⟩)
        simpa using this
      refine ⟨?_, ?_, ?_, ?_, ?_⟩
      · rw [namesNodup]
        simp only [List.map_append, hCfilter, List.map_cons, List.map_nil, hname]
        rw [map_name_filter, List.nodup_append]
        refine ⟨hndP.filter _, ?_, ?_⟩
        · rw [List.nodup_append]
          refine ⟨hndC, List.nodup_singleton fn, ?_⟩
          intro x hx hx'
          rcases List.mem_singleton.mp hx' with rfl
          exact hfnC hx
        · intro x hx hx'
          rcases List.mem_filter.mp hx with ⟨hxP, hxne⟩
          rcases List.mem_append.mp hx' with hx' | hx'
          · exact hdisj hxP hx'
          · rcases List.mem_singleton.mp hx' with rfl
            simp at hxne
      · intro f hf
        simp only [hCfilter, List.mem_append]
        exact Or.inl hf
      · intro f hf
        exact (List.mem_filter.mp hf).1
      · intro f hf
        by_cases he : f.name = fn
        · right
          have hfeq : f = f0 := by
            have hndP' : (s.pending.map (fun f => f.name)).Nodup := hndP
            exact List.inj_on_of_nodup_map hndP' hf hmem (by rw [he, hname])
          simp only [hCfilter, List.mem_append, hfeq]
          exact Or.inr (List.mem_singleton.mpr rfl)
        · left
          exact List.mem_filter.mpr ⟨hf, by simpa using he⟩
      · intro f hf
        simp only [hCfilter, List.mem_append] at hf
        rcases hf with hf | hf
        · exact Or.inl hf
        · rcases List.mem_singleton.mp hf with rfl
          exact Or.inr hmem

theorem runSweepClaimFixed_frame (handler : String → Bool) (fns : List String) :
    ∀ s : QueueState, namesNodup s →
      (∀ f, f ∈ s.claimed → f ∈ (runSweepClaimFixed handler s fns).state.claimed) ∧
      (∀ f, f ∈ (runSweepClaimFixed handler s fns).state.pending → f ∈ s.pending) ∧
      (∀ f, f ∈ s.pending →
        f ∈ (runSweepClaimFixed handler s fns).state.pending ∨
          f ∈ (runSweepClaimFixed handler s fns).state.claimed) ∧
      (∀ f, f ∈ (runSweepClaimFixed handler s fns).state.claimed →
        f ∈ s.claimed ∨ f ∈ s.pending) := by
  induction fns with
  | nil =>
    intro s _
    exact ⟨fun f hf => hf, fun f hf => hf, fun f hf => Or.inl hf, fun f hf => Or.inl hf⟩
  | cons fn rest ih =>
    intro s hnd
    rcases hren : renamePy s fn with e | s'
    · simpa [runSweepClaimFixed, hren] using ih s hnd
    · rcases renamePy_ok_frame hren hnd with ⟨hnd', hc, hp, hpc, hcp⟩
      by_cases hh : handler fn = true
      · have ihs := ih s' hnd'
        rcases ihs with ⟨ihc, ihp, ihpc, ihcp⟩
        simp only [runSweepClaimFixed, hren, hh, if_pos]
        refine ⟨?_, ?_, ?_, ?_⟩
        · exact fun f hf => ihc f (hc f hf)
        · exact fun f hf => hp f (ihp f hf)
        · intro f hf
          rcases hpc f hf with hf' | hf'
          · exact ihpc f hf'
          · exact Or.inr (ihc f hf')
        · intro f hf
          rcases ihcp f hf with hf' | hf'
          · exact hcp f hf'
          · exact Or.inr (hp f hf')
      · have hh' : handler fn = false := by simpa using hh
        simp only [runSweepClaimFixed, hren, hh', if_neg, Bool.false_eq_true,
          not_false_eq_true]
        exact ⟨hc, hp, hpc, hcp⟩

/-- When every handler invocation returns normally, nothing escapes the
sweep: every claim-step failure (missing source or other `OSError`) is caught
by the bare `except:` and merely logged. -/
theorem runSweepClaimFixed_no_escalation (handler : String → Bool)
    (hall : ∀ fn, handler fn = true) (fns : List String) :
    ∀ s : QueueState, (runSweepClaimFixed handler s fns).error = none := by
  induction fns with
  | nil => intro s; rfl
  | cons fn rest ih =>
    intro s
    rcases hren : renamePy s fn with e | s'
    · simp [runSweepClaimFixed, hren, ih]
    · simp [runSweepClaimFixed, hren, hall fn, ih]

theorem fnmatchAux_star (l : List Char) :
    ∀ fuel, l.length + 2 ≤ fuel → fnmatchAux fuel ['*'] l = true := by
  induction l with
  | nil =>
    intro fuel h
    match fuel, h with
    | f + 2, _ => rfl
  | cons c ss ih =>
    intro fuel h
    match fuel, h with
    | f + 1, h =>
      have : fnmatchAux f ['*'] ss = true := ih f (by simpa using h)
      simp [fnmatchAux, this]

/-- The default pattern `*` matches every name. -/
theorem fnmatch_star (n : String) : fnmatch "*" n = true := by
  rw [fnmatch]
  refine fnmatchAux_star n.data _ ?_
  have h1 : ("*" : String).length = 1 := rfl
  have h2 : n.length = n.data.length := rfl
  rw [h1, h2]
  omega

/-- Completeness of the default listing: every non-hidden, non-directory
pending file (whose name is not also a directory's) is in the snapshot. -/
theorem mem_listQueue_star (s : QueueState) (f : QFile) (hf : f ∈ s.pending)
    (hhid : hiddenName f.name = false)
    (hnd : s.pending.any (fun g => g.name == f.name && g.isDir) = false) :
    f.name ∈ listQueue s "*" := by
  rw [listQueue, mem_sortNames]
  refine List.mem_filter.mpr ⟨?_, by rw [hnd]; rfl⟩
  rw [globNames, if_pos (by decide), if_neg (by decide)]
  refine List.mem_filter.mpr ⟨?_, fnmatch_star _⟩
  refine List.mem_filter.mpr ⟨List.mem_map.mpr ⟨f, hf, rfl⟩, by rw [hhid]; rfl⟩

end SweepLemmas

section Claims

/-- C1: the claim says a sweep moves every pending entry into the claimed
directory (same base name, content unchanged) and then invokes the entry
handler on the claimed path.  The code does neither: line 70 reads the
unbound name `outpath` (the attribute is `self.outpath`), the resulting
`NameError` is caught by the bare `except:` of line 72, and every entry is
logged as `-- doesn't exist; already processed` and skipped.  First
conjunct: no sweep ever changes the filesystem or invokes `process_entry`
or `handle_exception`.  Second conjunct: the spec's own end-to-end scenario
state (one pending entry with payload `hello`), evaluated. -/
theorem claimC1_sweep_never_claims_nor_processes :
    (∀ s : QueueState, (processQueue s).state = s ∧
      (processQueue s).processed = [] ∧ (processQueue s).failures = []) ∧
    processQueue ⟨[⟨"20240101.120000.%f-0.12345.json", "hello", false⟩], [], []⟩
      = ⟨⟨[⟨"20240101.120000.%f-0.12345.json", "hello", false⟩], [], []⟩,
          [.header "20240101.120000.%f-0.12345.json", .alreadyProcessed],
          [], [], none⟩ := by
  constructor
  · intro s
    exact ⟨processQueue_state s, runSweepAsWritten_processed s _,
      runSweepAsWritten_failures s _⟩
  · decide

/-- C2 (counterexample): the claim says a filesystem error other than a
missing source is escalated to the caller and never treated as
already-claimed.  Concrete input: one pending entry `a.json` whose rename
raises a non-`ENOENT` `OSError` (e.g. permission denied).  Both the sweep as
written and the sweep with the `outpath` slip repaired finish normally
(`error = none`), log the already-processed line, and leave the state
unchanged: the error is swallowed, not escalated. -/
theorem claimC2_counterexample :
    (processQueue ⟨[⟨"a.json", "x", false⟩], [], ["a.json"]⟩).error = none ∧
    (processQueue ⟨[⟨"a.json", "x", false⟩], [], ["a.json"]⟩).logs
      = [.header "a.json", .alreadyProcessed] ∧
    (processQueue ⟨[⟨"a.json", "x", false⟩], [], ["a.json"]⟩).state
      = ⟨[⟨"a.json", "x", false⟩], [], ["a.json"]⟩ ∧
    (processQueueClaimFixed (fun _ => true)
        ⟨[⟨"a.json", "x", false⟩], [], ["a.json"]⟩).error = none ∧
    (processQueueClaimFixed (fun _ => true)
        ⟨[⟨"a.json", "x", false⟩], [], ["a.json"]⟩).logs
      = [.header "a.json", .alreadyProcessed] ∧
    (processQueueClaimFixed (fun _ => true)
        ⟨[⟨"a.json", "x", false⟩], [], ["a.json"]⟩).state
      = ⟨[⟨"a.json", "x", false⟩], [], ["a.json"]⟩ := by
  decide

/-- C2 (amended): every failure of the claim step — missing source and any
other filesystem error alike — is caught by the bare `except:`, logged as
already-processed, and the sweep continues; no claim-step error is ever
escalated to the caller.  As written the sweep in fact never errors and
never mutates; with the `outpath` slip repaired, the sweep still reports no
error as long as the handler invocations succeed. -/
theorem claimC2_amended_claim_errors_swallowed (s : QueueState)
    (handler : String → Bool) (hall : ∀ fn, handler fn = true) :
    (processQueue s).error = none ∧ (processQueue s).state = s ∧
      (processQueueClaimFixed handler s).error = none :=
  ⟨runSweepAsWritten_error s _, processQueue_state s,
    runSweepClaimFixed_no_escalation handler hall _ s⟩

/-- C2 (witness). -/
theorem claimC2_amended_witness :
    (processQueueClaimFixed (fun _ => true)
        ⟨[⟨"a.json", "x", false⟩], [], ["a.json"]⟩).error = none :=
  (claimC2_amended_claim_errors_swallowed ⟨[⟨"a.json", "x", false⟩], [], ["a.json"]⟩
    (fun _ => true) (fun _ => rfl)).2.2

/-- C3: the claim says a handler failure is routed to the failure handler
with the original pending name, logged, and the sweep continues with the
remaining entries.  The code cannot do this.  (a) As written, the handler is
never invoked at all (see C1), so on the claim's three-entry scenario
`processed` and `failures` are both empty.  (b) Even with the claim step's
`outpath` slip repaired (spec §9), a failing handler reaches line 79's
`except exception:`, which evaluates the unbound name `exception`; the
resulting `NameError` escapes the sweep: the second entry's failure aborts
the sweep, `handle_exception` is never invoked, and the third entry is never
attempted.  (c) The `handle_exception` signature itself,
`def handle_exception(self, fn=None, exception=exception)`, evaluates the
unbound default at class-creation time, so importing the module raises
`NameError` before any queue exists. -/
theorem claimC3_handler_failure_aborts_sweep :
    (processQueueClaimFixed (fun fn => !(fn == "b.json"))
        ⟨[⟨"a.json", "A", false⟩, ⟨"b.json", "B", false⟩,
          ⟨"c.json", "C", false⟩], [], []⟩).error
      = some (.nameErr "exception") ∧
    (processQueueClaimFixed (fun fn => !(fn == "b.json"))
        ⟨[⟨"a.json", "A", false⟩, ⟨"b.json", "B", false⟩,
          ⟨"c.json", "C", false⟩], [], []⟩).processed = ["a.json", "b.json"] ∧
    (processQueueClaimFixed (fun fn => !(fn == "b.json"))
        ⟨[⟨"a.json", "A", false⟩, ⟨"b.json", "B", false⟩,
          ⟨"c.json", "C", false⟩], [], []⟩).failures = [] ∧
    (processQueueClaimFixed (fun fn => !(fn == "b.json"))
        ⟨[⟨"a.json", "A", false⟩, ⟨"b.json", "B", false⟩,
          ⟨"c.json", "C", false⟩], [], []⟩).attempts = ["a.json", "b.json"] ∧
    (processQueueClaimFixed (fun fn => !(fn == "b.json"))
        ⟨[⟨"a.json", "A", false⟩, ⟨"b.json", "B", false⟩,
          ⟨"c.json", "C", false⟩], [], []⟩).state.pending
      = [⟨"c.json", "C", false⟩] ∧
    (processQueue ⟨[⟨"a.json", "A", false⟩, ⟨"b.json", "B", false⟩,
        ⟨"c.json", "C", false⟩], [], []⟩).processed = [] ∧
    (processQueue ⟨[⟨"a.json", "A", false⟩, ⟨"b.json", "B", false⟩,
        ⟨"c.json", "C", false⟩], [], []⟩).failures = [] := by
  decide

/-- C4: a sweep visits exactly the point-in-time listing of the pending
directory, in Python-lexicographic ascending order: the visited names equal
`Queue.list` of the starting state (so entries inserted later are outside
the snapshot), the listing is sorted, every listed name is a non-directory
pending file, and every non-hidden non-directory pending file (whose name
is not also a directory's) is listed. -/
theorem claimC4_snapshot_sorted_order (s : QueueState) :
    (processQueue s).attempts = listQueue s "*" ∧
    (listQueue s "*").Pairwise (fun a b => pyLe a b = true) ∧
    (∀ n ∈ listQueue s "*", ∃ f ∈ s.pending, f.name = n ∧ f.isDir = false) ∧
    (∀ f ∈ s.pending, hiddenName f.name = false →
      s.pending.any (fun g => g.name == f.name && g.isDir) = false →
      f.name ∈ listQueue s "*") := by
  refine ⟨processQueue_attempts s, listQueue_sorted s "*", ?_, ?_⟩
  · intro n hn
    exact (mem_listQueue hn).2
  · intro f hf hhid hndir
    exact mem_listQueue_star s f hf hhid hndir

/-- C4 (witness): two entries inserted as B then A are visited as A then
B. -/
theorem claimC4_witness :
    (processQueue ⟨[⟨"b.json", "B", false⟩, ⟨"a.json", "A", false⟩], [], []⟩).attempts
      = ["a.json", "b.json"] := by
  have h := (claimC4_snapshot_sorted_order
    ⟨[⟨"b.json", "B", false⟩, ⟨"a.json", "A", false⟩], [], []⟩).1
  rw [h]
  decide

/-- C5: the claim says the generated name carries a wall-clock timestamp of
microsecond precision followed by a 5-digit random component.  It does not:
`time.strftime` renders a `struct_time`, which has no sub-second field, and
glibc passes the unsupported `%f` directive through literally, so the name
contains the characters `%f` where the claim expects six microsecond digits,
and the random component is rendered as `-` followed by `%.5f` of a float in
`[0, 1)` (`-0.12345`), not a bare 5-digit field.  First conjunct: the
concrete name generated at 2024-01-01 12:00:00 with draw `0.12345`.  Second
conjunct: the name is invariant under the microsecond of the wall clock. -/
theorem claimC5_name_has_second_precision :
    insertName "" "" ".json" ⟨2024, 1, 1, 12, 0, 0⟩ 12345
        = "20240101.120000.%f-0.12345.json" ∧
    (∀ (pfx sfx ext : String) (t : Tm) (m1 m2 k : Nat),
      insertNameAtMicro pfx sfx ext t m1 k = insertNameAtMicro pfx sfx ext t m2 k) :=
  ⟨by decide, fun _ _ _ _ _ _ _ => rfl⟩

/-- C6 (counterexample): the claim says an insertion at a strictly later
wall-clock time at microsecond granularity yields a name that is
lexicographically greater than or equal to the earlier one.  Concrete input:
two insertions within the second 2024-01-01 12:00:00, the first at
microsecond 1 with draw `0.90000`, the second at microsecond 2 with draw
`0.10000`.  The second insertion is strictly later at microsecond
granularity, yet its name is strictly smaller (`pyLe` is false): the
timestamp has only second precision, so the random component decides. -/
theorem claimC6_counterexample :
    pyLe (insertNameAtMicro "" "" ".json" ⟨2024, 1, 1, 12, 0, 0⟩ 1 90000)
        (insertNameAtMicro "" "" ".json" ⟨2024, 1, 1, 12, 0, 0⟩ 2 10000)
      = false := by
  decide

/-- C6 (amended): names sort in non-decreasing order of wall-clock insertion
time at SECOND granularity only — a strictly later whole second gives a
strictly greater name, whatever the random draws — and within the same
second (not microsecond) the order of the two names is exactly the order of
the rounded 5-decimal random components. -/
theorem claimC6_amended_second_granularity (pfx sfx ext : String)
    (t1 t2 : Tm) (k1 k2 : Nat) (h1 : t1.inRange) (h2 : t2.inRange) :
    (t1.key < t2.key →
      pyLt (insertName pfx sfx ext t1 k1) (insertName pfx sfx ext t2 k2) = true) ∧
    (t1 = t2 → k1 < 100000 → k2 < 100000 →
      pyLt (insertName pfx sfx ext t1 k1) (insertName pfx sfx ext t2 k2)
        = decide (k1 < k2)) := by
  constructor
  · intro hk
    exact insertName_lt_of_key_lt pfx sfx ext k1 k2 h1 h2 hk
  · intro ht hk1 hk2
    subst ht
    exact insertName_same_second pfx sfx ext t1 hk1 hk2

/-- C6 (witness): 12:00:00 with the largest draw sorts strictly before
12:00:01 with the smallest draw. -/
theorem claimC6_amended_witness :
    pyLt (insertName "" "" ".json" ⟨2024, 1, 1, 12, 0, 0⟩ 99999)
        (insertName "" "" ".json" ⟨2024, 1, 1, 12, 0, 1⟩ 0) = true :=
  (claimC6_amended_second_granularity "" "" ".json" ⟨2024, 1, 1, 12, 0, 0⟩
    ⟨2024, 1, 1, 12, 0, 1⟩ 99999 0 (by decide) (by decide)).1 (by decide)

/-- C7 (counterexample): the claim says N insertions in rapid succession
(also within the same microsecond) always yield N distinct names.  Concrete
input: two distinct insertion instants — microseconds 111 and 222 of the
same second — whose draws both round to `0.12345`.  The two generated names
are identical: uniqueness is only probabilistic, and the timestamp cannot
separate insertions within one second. -/
theorem claimC7_counterexample :
    insertNameAtMicro "" "" ".json" ⟨2024, 1, 1, 12, 0, 0⟩ 111 12345
      = insertNameAtMicro "" "" ".json" ⟨2024, 1, 1, 12, 0, 0⟩ 222 12345 := rfl

/-- C7 (amended): insertions whose `(whole second, rounded 5-decimal draw)`
pairs are pairwise distinct yield pairwise distinct names; a collision
requires both the same wall-clock second and the same rounded draw. -/
theorem claimC7_amended_distinct_names (pfx sfx ext : String)
    (l : List (Tm × Nat)) (hr : ∀ x ∈ l, (x.1).inRange ∧ x.2 < 100000)
    (hd : l.Pairwise (fun a b => a ≠ b)) :
    (l.map (fun x => insertName pfx sfx ext x.1 x.2)).Pairwise
      (fun a b => a ≠ b) := by
  rw [List.pairwise_map]
  refine hd.imp_of_mem ?_
  intro a b ha hb hab
  rcases hr a ha with ⟨hra, hka⟩
  rcases hr b hb with ⟨hrb, hkb⟩
  refine insertName_inj pfx sfx ext hra hrb hka hkb ?_
  by_cases ht : a.1 = b.1
  · right
    intro hk
    apply hab
    cases a
    cases b
    simp only at ht hk
    rw [ht, hk]
  · exact Or.inl ht

/-- C7 (witness): three insertions — two in the same second with different
draws, one in the next second — give three distinct names. -/
theorem claimC7_amended_witness :
    (([(⟨2024, 1, 1, 12, 0, 0⟩, 11111), (⟨2024, 1, 1, 12, 0, 0⟩, 22222),
        (⟨2024, 1, 1, 12, 0, 1⟩, 11111)] : List (Tm × Nat)).map
      (fun x => insertName "" "" ".json" x.1 x.2)).Pairwise
        (fun a b => a ≠ b) :=
  claimC7_amended_distinct_names "" "" ".json" _ (by decide) (by decide)

/-- C8: inserting a payload under a name that already exists in the pending
directory fails with the fatal collision error and does not overwrite the
existing file.  (`bl.text.Text`, which performs the write, is not under
src/; its write is modelled from the spec, §4.5.) -/
theorem claimC8_collision_error (s : QueueState) (pfx sfx ext text : String)
    (t : Tm) (k : Nat)
    (h : ∃ f ∈ s.pending, f.name = insertName pfx sfx ext t k) :
    insertOp s pfx sfx ext t k text = .error "InsertionCollisionError" := by
  have hc : s.pending.any (fun f => f.name == insertName pfx sfx ext t k) = true := by
    rcases h with ⟨f, hf, he⟩
    exact List.any_eq_true.mpr ⟨f, hf, by simp [he]⟩
  rw [insertOp, if_pos hc]

/-- C8 (witness). -/
theorem claimC8_witness :
    insertOp ⟨[⟨"20240101.120000.%f-0.12345.json", "old", false⟩], [], []⟩
        "" "" ".json" ⟨2024, 1, 1, 12, 0, 0⟩ 12345 "new"
      = .error "InsertionCollisionError" :=
  claimC8_collision_error
    ⟨[⟨"20240101.120000.%f-0.12345.json", "old", false⟩], [], []⟩
    "" "" ".json" "new" ⟨2024, 1, 1, 12, 0, 0⟩ 12345 (by decide)

/-- C9: no core operation deletes an entry file or moves a claimed entry
back to pending.  As written, a sweep leaves the filesystem untouched
(first conjunct).  Under the spec-§9 repair of the `outpath` slip — the only
variant in which claims succeed at all — a sweep only ever moves files from
pending to claimed: claimed files persist through the sweep whatever the
handler outcomes, nothing enters pending, and every file of the final state
was already present initially (conjuncts 2-5, for directories whose file
names are distinct, as real directories guarantee).  `insert` only appends a
new pending file (last conjunct); `list` does not touch the state by
construction. -/
theorem claimC9_claimed_is_terminal (handler : String → Bool)
    (s : QueueState) (hnd : namesNodup s) (pfx sfx ext text : String)
    (t : Tm) (k : Nat) :
    (processQueue s).state = s ∧
    (∀ f ∈ s.claimed, f ∈ (processQueueClaimFixed handler s).state.claimed) ∧
    (∀ f ∈ (processQueueClaimFixed handler s).state.pending, f ∈ s.pending) ∧
    (∀ f ∈ s.pending,
      f ∈ (processQueueClaimFixed handler s).state.pending ∨
        f ∈ (processQueueClaimFixed handler s).state.claimed) ∧
    (∀ f ∈ (processQueueClaimFixed handler s).state.claimed,
      f ∈ s.claimed ∨ f ∈ s.pending) ∧
    (∀ s' n, insertOp s pfx sfx ext t k text = .ok (s', n) →
      (∀ f ∈ s.pending, f ∈ s'.pending) ∧ s'.claimed = s.claimed) := by
  rcases runSweepClaimFixed_frame handler (listQueue s "*") s hnd with
    ⟨h1, h2, h3, h4⟩
  refine ⟨processQueue_state s, h1, h2, h3, h4, ?_⟩
  intro s' n hok
  rw [insertOp] at hok
  by_cases hc : s.pending.any (fun f => f.name == insertName pfx sfx ext t k) = true
  · rw [if_pos hc] at hok
    cases hok
  · rw [if_neg hc] at hok
    injection hok with hok
    injection hok with hok1 hok2
    subst hok1
    exact ⟨fun f hf => List.mem_append.mpr (Or.inl hf), rfl⟩

/-- C9 (witness): a previously claimed file survives a sweep that claims and
processes a new entry. -/
theorem claimC9_witness :
    (⟨"b.json", "B", false⟩ : QFile) ∈
      (processQueueClaimFixed (fun _ => true)
        ⟨[⟨"a.json", "A", false⟩], [⟨"b.json", "B", false⟩], []⟩).state.claimed :=
  (claimC9_claimed_is_terminal (fun _ => true)
    ⟨[⟨"a.json", "A", false⟩], [⟨"b.json", "B", false⟩], []⟩ (by decide)
    "" "" ".json" "x" ⟨2024, 1, 1, 12, 0, 0⟩ 0).2.1
    ⟨"b.json", "B", false⟩ (by decide)

/-- C10: a pending file whose base name begins with a dot is invisible to
the default listing `*` — it is never in `Queue.list(s, "*")` and a sweep
never visits it — and it is listed under a pattern `pat` only when `pat`
explicitly reaches hidden names: either a magic pattern itself beginning
with a dot that `fnmatch`-matches the name, or the literal name itself. -/
theorem claimC10_hidden_entries_skipped (s : QueueState) (n : String)
    (hn : hiddenName n = true) :
    n ∉ listQueue s "*" ∧
    n ∉ (processQueue s).attempts ∧
    (∀ pat, n ∈ listQueue s pat →
      (hasMagic pat = true ∧ hiddenName pat = true ∧ fnmatch pat n = true) ∨
        (hasMagic pat = false ∧ n = pat)) := by
  have h1 : n ∉ listQueue s "*" := by
    intro hmem
    have hg := (mem_listQueue hmem).1
    have hhid := (mem_glob_star hg).2
    rw [hn] at hhid
    exact absurd hhid (by decide)
  refine ⟨h1, ?_, ?_⟩
  · rw [processQueue_attempts]
    exact h1
  · intro pat hmem
    exact hidden_mem_glob hn (mem_listQueue hmem).1

/-- C10 (witness): `.h.json` is not listed by the default pattern but is
listed by the caller-supplied pattern `.*`. -/
theorem claimC10_witness :
    ".h.json" ∉ listQueue
        ⟨[⟨".h.json", "x", false⟩, ⟨"a.json", "y", false⟩], [], []⟩ "*" ∧
    ".h.json" ∈ listQueue
        ⟨[⟨".h.json", "x", false⟩, ⟨"a.json", "y", false⟩], [], []⟩ ".*" :=
  ⟨(claimC10_hidden_entries_skipped
      ⟨[⟨".h.json", "x", false⟩, ⟨"a.json", "y", false⟩], [], []⟩
      ".h.json" (by decide)).1,
    by decide⟩

end Claims

end BL
